import Mathlib

/-!
Verification of the crash-dump analysis pipeline (`crash_analyzer.py`,
`minidump_analyzer.py`): shallow embedding of the extractor, decoder,
format sniffer, minidump header parser and binary forensics engine,
with theorems settling the specification's claims.

Bytes are modelled as `Fin 256` (Python `bytes` elements), buffers as
`List Byte`, text as `List Char`.
-/

set_option maxHeartbeats 1000000
set_option maxRecDepth 8192

namespace CrashPipeline

abbrev Byte := Fin 256

/-- Little-endian unsigned 32-bit read at offset `i`
(`struct.unpack('<I', data[i:i+4])`); out-of-range positions read 0,
callers guard bounds as the source does. -/
def le32 (data : List Byte) (i : Nat) : Nat :=
  (data.getD i 0).val + 256 * (data.getD (i + 1) 0).val +
    65536 * (data.getD (i + 2) 0).val + 16777216 * (data.getD (i + 3) 0).val

/-- Little-endian unsigned 64-bit read at offset `i` (`struct.unpack('<Q', ...)`). -/
def le64 (data : List Byte) (i : Nat) : Nat :=
  le32 data i + 4294967296 * le32 data (i + 4)

/-- Python `range(0, stop, step)` for positive `step`: the offsets
`0, step, 2*step, ...` strictly below `stop`.  A non-positive Python stop
corresponds to `stop = 0` after `Nat` truncation, giving the empty list. -/
def rangeStep (stop step : Nat) : List Nat :=
  (List.range ((stop + step - 1) / step)).map (· * step)

/-! ### `MinidumpAnalyzer.analyze_potential_addresses` (minidump_analyzer.py:161-178)

The loop is `for i in range(0, len(self.data) - 8, 4)`; at each offset it
appends the 32-bit value if it lies in `[0x10000000, 0xFFFFFFFF]`, then —
under the guard `i + 8 <= len(self.data)`, which the loop bound makes
always true — the 64-bit value if it lies in `[0x100000000, 0x7FFFFFFFFFFF]`.
The final `list(set(...))` deduplicates in unspecified order; we model the
appended list itself. -/

def analyze_potential_addresses (data : List Byte) : List Nat :=
  (rangeStep (data.length - 8) 4).foldl (fun acc i =>
    let acc1 :=
      if 0x10000000 ≤ le32 data i ∧ le32 data i ≤ 0xFFFFFFFF then acc ++ [le32 data i] else acc
    if i + 8 ≤ data.length then
      if 0x100000000 ≤ le64 data i ∧ le64 data i ≤ 0x7FFFFFFFFFFF then acc1 ++ [le64 data i]
      else acc1
    else acc1) []

/-! ### Format sniffer (`analyze_binary_data` signature loop, crash_analyzer.py:133-153) -/

inductive ContainerSignature where
  | minidump | elf | zipArchive | png | gif | jpeg | unknown
deriving DecidableEq, Repr

/-- The `signatures` dict of `analyze_binary_data`, in source (insertion)
order: `MDMP`, `ELF`, `\x7fELF`, `PK`, `\x89PNG`, `GIF8`, `\xff\xd8\xff`. -/
def signatures : List (List Byte × ContainerSignature) :=
  [([0x4D, 0x44, 0x4D, 0x50], .minidump),
   ([0x45, 0x4C, 0x46], .elf),
   ([0x7F, 0x45, 0x4C, 0x46], .elf),
   ([0x50, 0x4B], .zipArchive),
   ([0x89, 0x50, 0x4E, 0x47], .png),
   ([0x47, 0x49, 0x46, 0x38], .gif),
   ([0xFF, 0xD8, 0xFF], .jpeg)]

/-- The classification performed by the `for sig, desc in signatures.items():
if binary_data.startswith(sig): break / else: unknown` loop of
`analyze_binary_data`. -/
def detectFileType (data : List Byte) : ContainerSignature :=
  match signatures.find? (fun sd => sd.1.isPrefixOf data) with
  | some sd => sd.2
  | none => .unknown

/-- Modelled from the spec: the same table in the spec's declared priority
order, with the 4-byte ELF marker `7F 45 4C 46` checked before the bare
ASCII `ELF`. -/
def signaturesSpecOrder : List (List Byte × ContainerSignature) :=
  [([0x4D, 0x44, 0x4D, 0x50], .minidump),
   ([0x7F, 0x45, 0x4C, 0x46], .elf),
   ([0x45, 0x4C, 0x46], .elf),
   ([0x50, 0x4B], .zipArchive),
   ([0x89, 0x50, 0x4E, 0x47], .png),
   ([0x47, 0x49, 0x46, 0x38], .gif),
   ([0xFF, 0xD8, 0xFF], .jpeg)]

/-- Modelled from the spec: classification trying `signaturesSpecOrder`. -/
def detectFileTypeSpecOrder (data : List Byte) : ContainerSignature :=
  match signaturesSpecOrder.find? (fun sd => sd.1.isPrefixOf data) with
  | some sd => sd.2
  | none => .unknown

/-! ### Bounds-checked reader and minidump header parser
(`MinidumpAnalyzer.read_uint32` / `read_bytes` / `_parse_mdmp_header`,
minidump_analyzer.py:21-47, 64-86) -/

/-- `read_uint32`: value (or `None`) plus the cursor after the call; the
cursor advances only on success. -/
def read_uint32 (data : List Byte) (pos : Nat) : Option Nat × Nat :=
  if pos + 4 ≤ data.length then (some (le32 data pos), pos + 4) else (none, pos)

/-- `read_bytes`: slice (or `None`) plus the cursor after the call. -/
def read_bytes (data : List Byte) (pos count : Nat) : Option (List Byte) × Nat :=
  if pos + count ≤ data.length then (some ((data.drop pos).take count), pos + count)
  else (none, pos)

structure MdmpHeader where
  version : Option Nat
  stream_count : Option Nat
  stream_directory_rva : Option Nat
deriving DecidableEq, Repr

/-- One header field: the source guards each store with Python truthiness
(`if version:`), so a value that is `None` *or* `0` is omitted. -/
def headerField (r : Option Nat) : Option Nat :=
  match r with
  | some v => if v ≠ 0 then some v else none
  | none => none

/-- `_parse_mdmp_header`, entered with the cursor just past the 4-byte
signature; three sequential `read_uint32` calls. -/
def parse_mdmp_header (data : List Byte) (pos : Nat) : MdmpHeader :=
  let r1 := read_uint32 data pos
  let r2 := read_uint32 data r1.2
  let r3 := read_uint32 data r2.2
  { version := headerField r1.1
    stream_count := headerField r2.1
    stream_directory_rva := headerField r3.1 }

/-! ### `MinidumpAnalyzer._calculate_entropy` (minidump_analyzer.py:109-127)

Shannon entropy in bits per byte over the 256-bucket byte histogram:
`entropy -= p * math.log2(p)` for every bucket with positive count,
0.0 for the empty buffer. -/

noncomputable def calculate_entropy (data : List Byte) : ℝ :=
  if data = [] then 0
  else ∑ b : Byte,
    (if 0 < data.count b then
      -((data.count b / data.length : ℝ) * Real.logb 2 (data.count b / data.length))
     else 0)

/-! ### `MinidumpAnalyzer._find_patterns` (minidump_analyzer.py:129-141)

For pattern lengths 2, 3, 4 every window `data[i:i+L]` bumps a dict entry
(dicts preserve insertion order); patterns with count > 1 are kept and
sorted by count with `sorted(..., key=lambda x: x[1], reverse=True)`,
which is a *stable* descending sort. -/

/-- `data[i:i+L]`. -/
def sliceAt (data : List Byte) (i L : Nat) : List Byte := (data.drop i).take L

/-- The windows of one pattern length, `for i in range(len(data) - L + 1)`. -/
def windowsOfLen (data : List Byte) (L : Nat) : List (List Byte) :=
  (List.range (data.length + 1 - L)).map (fun i => sliceAt data i L)

/-- All windows in loop order: lengths 2, 3, 4, each offset ascending. -/
def allWindows (data : List Byte) : List (List Byte) :=
  windowsOfLen data 2 ++ windowsOfLen data 3 ++ windowsOfLen data 4

/-- One dict update `patterns[p] = patterns.get(p, 0) + 1`: bump an existing
entry or append a new one (insertion order preserved). -/
def bump (acc : List (List Byte × Nat)) (p : List Byte) : List (List Byte × Nat) :=
  if acc.any (fun e => e.1 = p) then
    acc.map (fun e => if e.1 = p then (e.1, e.2 + 1) else e)
  else acc ++ [(p, 1)]

/-- Stable insertion for a descending sort on the count: `x` goes before the
first element whose count is not larger, so earlier-inserted entries stay
ahead of equal-count later ones — the order `sorted(..., reverse=True)`
produces. -/
def insertByCount (x : List Byte × Nat) : List (List Byte × Nat) → List (List Byte × Nat)
  | [] => [x]
  | y :: ys => if y.2 ≤ x.2 then x :: y :: ys else y :: insertByCount x ys

def sortByCountDesc : List (List Byte × Nat) → List (List Byte × Nat)
  | [] => []
  | x :: xs => insertByCount x (sortByCountDesc xs)

/-- `_find_patterns`. -/
def find_patterns (data : List Byte) : List (List Byte × Nat) :=
  sortByCountDesc (((allWindows data).foldl bump []).filter (fun e => 1 < e.2))

/-- The true number of occurrences of `p` as a contiguous slice of `data`
(overlapping occurrences counted), stated independently of the dict fold. -/
def occCount (data : List Byte) (p : List Byte) : Nat :=
  (List.range (data.length + 1)).countP
    (fun i => decide (i + p.length ≤ data.length) && decide (sliceAt data i p.length = p))

/-! ### `MinidumpAnalyzer.analyze_header` (minidump_analyzer.py:49-62, 88-107)

`analyze_header` branches: an `MDMP` signature goes to `_parse_mdmp_header`,
anything else to `_analyze_unknown_format`, which is the only caller of
`_calculate_entropy` and `_find_patterns` on this path. -/

inductive HeaderResult where
  | mdmp (h : MdmpHeader)
  | unknownFormat (size : Nat) (entropy : ℝ) (patterns : List (List Byte × Nat))

/-- Whether the result carries the unknown-format forensic findings
(entropy and repeating patterns). -/
def HeaderResult.hasForensics : HeaderResult → Bool
  | .unknownFormat .. => true
  | _ => false

def mdmpSignature : List Byte := [0x4D, 0x44, 0x4D, 0x50]

noncomputable def analyze_header (data : List Byte) : HeaderResult :=
  let r := read_bytes data 0 4
  if r.1 = some mdmpSignature then .mdmp (parse_mdmp_header data r.2)
  else .unknownFormat data.length (calculate_entropy data) (find_patterns data)

/-! ### `extract_crashpad_data` (crash_analyzer.py:14-31)

`re.findall(r'F crashpad: ([^$\n]+)', log)` collects, per match, the maximal
nonempty run of characters after the marker that contains neither `$` nor a
newline; the runs are joined, the two sentinel strings removed with
`str.replace` (one left-to-right non-overlapping pass each) and the result
stripped.  The scanning functions take explicit fuel (always called with
`length`, which suffices since every step consumes at least one character)
so that they stay structurally recursive. -/

def markerStr : List Char := "F crashpad: ".toList

def beginSentinel : List Char := "-----BEGIN CRASHPAD MINIDUMP-----".toList

def endSentinel : List Char := "-----END CRASHPAD MINIDUMP-----".toList

/-- A character the class `[^$\n]` accepts. -/
def payloadChar (c : Char) : Bool := decide (c ≠ '$' ∧ c ≠ '\n')

/-- `re.findall`: at each position try the pattern (marker followed by a
nonempty payload run); on a match emit the captured run and resume after
it, otherwise advance one character. -/
def findallFuel : Nat → List Char → List (List Char)
  | 0, _ => []
  | _, [] => []
  | fuel + 1, s@(_ :: rest) =>
    if markerStr.isPrefixOf s then
      let after := s.drop markerStr.length
      match after.takeWhile payloadChar with
      | [] => findallFuel fuel rest
      | run => run :: findallFuel fuel (after.dropWhile payloadChar)
    else findallFuel fuel rest

def findallCrashpad (s : List Char) : List (List Char) := findallFuel s.length s

/-- Python `s.replace(pat, '')` for nonempty `pat`: remove non-overlapping
occurrences left to right, never rescanning the spliced junction. -/
def replaceAllFuel : Nat → List Char → List Char → List Char
  | 0, s, _ => s
  | fuel + 1, s, pat =>
    match s with
    | [] => []
    | c :: rest =>
      if pat ≠ [] ∧ pat.isPrefixOf s then replaceAllFuel fuel (s.drop pat.length) pat
      else c :: replaceAllFuel fuel rest pat

def replaceAll (s pat : List Char) : List Char := replaceAllFuel s.length s pat

/-- The ASCII whitespace `str.strip()` removes (Python's full set also has
rarer Unicode spaces, which this log format never carries). -/
def isSpaceChar (c : Char) : Bool :=
  decide (c = ' ' ∨ c = '\t' ∨ c = '\n' ∨ c = '\r' ∨ c = '\x0b' ∨ c = '\x0c')

def stripChars (s : List Char) : List Char :=
  ((s.dropWhile isSpaceChar).reverse.dropWhile isSpaceChar).reverse

def extract_crashpad_data (log : List Char) : Option (List Char) :=
  match findallCrashpad log with
  | [] => none
  | ms => some (stripChars (replaceAll (replaceAll ms.flatten beginSentinel) endSentinel))

/-! ### Decoder strategies (`decode_crashpad_data`, `decode_base64`,
`decode_hex`, `analyze_raw_data`, crash_analyzer.py:34-131)

A strategy that raises or returns a falsy value is a declined strategy;
we model declining as `none`.  `decode_base64` and `decode_hex` return the
`analyze_binary_data` dict of the decoded bytes (modelled by its `data`
payload); `analyze_raw_data` returns the raw-analysis dict. -/

def mkByte (n : Nat) : Byte := ⟨n % 256, Nat.mod_lt _ (by omega)⟩

/-- Value of a base64 alphabet character (standard alphabet `A-Za-z0-9+/`). -/
def charToSextet (c : Char) : Option Nat :=
  let n := c.toNat
  if 65 ≤ n ∧ n ≤ 90 then some (n - 65)
  else if 97 ≤ n ∧ n ≤ 122 then some (n - 97 + 26)
  else if 48 ≤ n ∧ n ≤ 57 then some (n - 48 + 52)
  else if n = 43 then some 62
  else if n = 47 then some 63
  else none

/-- Standard base64 alphabet character of a 6-bit value. -/
def sextetToChar (n : Nat) : Char :=
  if n < 26 then Char.ofNat (65 + n)
  else if n < 52 then Char.ofNat (97 + (n - 26))
  else if n < 62 then Char.ofNat (48 + (n - 52))
  else if n = 62 then '+' else '/'

/-- The character class kept by `re.sub(r'[^A-Za-z0-9+/=]', '', data)`. -/
def isB64Char (c : Char) : Bool := (charToSextet c).isSome || decide (c = '=')

/-- `base64.b64encode` with the standard alphabet and `=` padding. -/
def b64encode : List Byte → List Char
  | a :: b :: c :: rest =>
    sextetToChar (a.val / 4) :: sextetToChar ((a.val % 4) * 16 + b.val / 16) ::
      sextetToChar ((b.val % 16) * 4 + c.val / 64) :: sextetToChar (c.val % 64) ::
      b64encode rest
  | [a, b] =>
    [sextetToChar (a.val / 4), sextetToChar ((a.val % 4) * 16 + b.val / 16),
     sextetToChar ((b.val % 16) * 4), '=']
  | [a] => [sextetToChar (a.val / 4), sextetToChar ((a.val % 4) * 16), '=', '=']
  | [] => []

/-- `base64.b64decode` on an already-cleaned string: groups of four
characters; `=` padding allowed only in the final group; a length that is
not a multiple of four, or a character outside the alphabet where a value
is needed, is an error (`none`). -/
def b64decodeGroups : List Char → Option (List Byte)
  | [] => some []
  | c1 :: c2 :: c3 :: c4 :: rest =>
    if c3 = '=' ∧ c4 = '=' ∧ rest = [] then
      match charToSextet c1, charToSextet c2 with
      | some s1, some s2 => some [mkByte (s1 * 4 + s2 / 16)]
      | _, _ => none
    else if c4 = '=' ∧ rest = [] then
      match charToSextet c1, charToSextet c2, charToSextet c3 with
      | some s1, some s2, some s3 =>
        some [mkByte (s1 * 4 + s2 / 16), mkByte ((s2 % 16) * 16 + s3 / 4)]
      | _, _, _ => none
    else
      match charToSextet c1, charToSextet c2, charToSextet c3, charToSextet c4,
          b64decodeGroups rest with
      | some s1, some s2, some s3, some s4, some tail =>
        some (mkByte (s1 * 4 + s2 / 16) :: mkByte ((s2 % 16) * 16 + s3 / 4) ::
          mkByte ((s3 % 4) * 64 + s4) :: tail)
      | _, _, _, _, _ => none
  | _ => none

/-- The payload a successful strategy hands back: the `analyze_binary_data`
dict (whose `data` field is the decoded buffer) or the `analyze_raw_data`
dict (raw text plus the character-class counts of its `patterns` table). -/
inductive DecodeResult where
  | binary (data : List Byte)
  | raw (data : List Char) (printable digits letters special : Nat)
deriving DecidableEq, Repr

/-- `decode_base64`: clean to the base64 alphabet, decode, succeed only on
a nonempty byte result. -/
def decode_base64 (data : List Char) : Option DecodeResult :=
  match b64decodeGroups (data.filter isB64Char) with
  | some decoded => if decoded ≠ [] then some (.binary decoded) else none
  | none => none

/-- The character class kept by `re.sub(r'[^0-9A-Fa-f]', '', data)`. -/
def isHexDigitChar (c : Char) : Bool :=
  decide (('0' ≤ c ∧ c ≤ '9') ∨ ('a' ≤ c ∧ c ≤ 'f') ∨ ('A' ≤ c ∧ c ≤ 'F'))

def hexVal (c : Char) : Nat :=
  if '0' ≤ c ∧ c ≤ '9' then c.toNat - 48
  else if 'a' ≤ c then c.toNat - 87
  else c.toNat - 55

/-- `binascii.unhexlify` on an even-length hex string. -/
def unhexlify : List Char → List Byte
  | c1 :: c2 :: rest => mkByte (hexVal c1 * 16 + hexVal c2) :: unhexlify rest
  | _ => []

/-- `decode_hex`: clean to hex digits; an even cleaned length (including
zero) decodes and succeeds, an odd one declines.  Unlike `decode_base64`
there is no nonemptiness check on the decoded bytes. -/
def decode_hex (data : List Char) : Option DecodeResult :=
  let clean := data.filter isHexDigitChar
  if clean.length % 2 = 0 then some (.binary (unhexlify clean)) else none

/-- Regex class `[!-~]`. -/
def isPrintableAscii (c : Char) : Bool := decide (33 ≤ c.toNat ∧ c.toNat ≤ 126)

/-- Regex class `\d`. -/
def isDigitChar (c : Char) : Bool := decide (48 ≤ c.toNat ∧ c.toNat ≤ 57)

/-- Regex class `[A-Za-z]`. -/
def isLetterChar (c : Char) : Bool :=
  decide ((65 ≤ c.toNat ∧ c.toNat ≤ 90) ∨ (97 ≤ c.toNat ∧ c.toNat ≤ 122))

/-- Regex class `[^A-Za-z0-9\s]`. -/
def isSpecialChar (c : Char) : Bool :=
  !(isLetterChar c || isDigitChar c || isSpaceChar c)

/-- `analyze_raw_data`: always returns its structural-statistics dict
(the source only divides by the length for printed percentages, which is
total for the nonempty input the pipeline feeds it). -/
def analyze_raw_data (data : List Char) : DecodeResult :=
  .raw data (data.countP isPrintableAscii) (data.countP isDigitChar)
    (data.countP isLetterChar) (data.countP isSpecialChar)

/-- `decode_crashpad_data`: empty input short-circuits to `None`; otherwise
the strategies run in the fixed order Base64, Hex, Raw analysis and the
first non-declining one wins (exceptions inside a strategy are caught and
count as declining). -/
def decode_crashpad_data (encoded : List Char) : Option DecodeResult :=
  if encoded = [] then none
  else
    match decode_base64 encoded with
    | some r => some r
    | none =>
      match decode_hex encoded with
      | some r => some r
      | none => some (analyze_raw_data encoded)

/-! ## Theorems -/

/-- A stored header field equals `some v` iff its read was in bounds and
the value is nonzero. -/
theorem ifField_some_iff {P : Prop} [Decidable P] {w v : Nat} :
    (if P ∧ w ≠ 0 then some w else none) = some v ↔ P ∧ v = w ∧ v ≠ 0 := by
  split
  · rename_i h
    simp only [Option.some_inj]
    constructor
    · rintro rfl; exact ⟨h.1, rfl, h.2⟩
    · rintro ⟨_, rfl, _⟩; rfl
  · rename_i h
    constructor
    · intro hx; cases hx
    · rintro ⟨h1, rfl, h3⟩; exact absurd ⟨h1, h3⟩ h

/-- Closed form of the header parser: each field is stored exactly when its
four bytes fit in the buffer and the decoded value is nonzero (Python
truthiness in `if version:` and friends). -/
theorem parse_mdmp_header_eq (data : List Byte) :
    parse_mdmp_header data 4 =
      { version := if 8 ≤ data.length ∧ le32 data 4 ≠ 0 then some (le32 data 4) else none
        stream_count := if 12 ≤ data.length ∧ le32 data 8 ≠ 0 then some (le32 data 8) else none
        stream_directory_rva :=
          if 16 ≤ data.length ∧ le32 data 12 ≠ 0 then some (le32 data 12) else none } := by
  by_cases h8 : 8 ≤ data.length
  · by_cases h12 : 12 ≤ data.length
    · by_cases h16 : 16 ≤ data.length
      · simp [parse_mdmp_header, read_uint32, headerField, apply_ite Prod.snd,
          apply_ite Prod.fst, h8, h12, h16]
      · simp [parse_mdmp_header, read_uint32, headerField, apply_ite Prod.snd,
          apply_ite Prod.fst, h8, h12, h16]
    · have h16 : ¬ 16 ≤ data.length := by omega
      simp [parse_mdmp_header, read_uint32, headerField, apply_ite Prod.snd,
        apply_ite Prod.fst, h8, h12, h16]
  · have h12 : ¬ 12 ≤ data.length := by omega
    have h16 : ¬ 16 ≤ data.length := by omega
    simp [parse_mdmp_header, read_uint32, headerField, apply_ite Prod.snd,
      apply_ite Prod.fst, h8, h12, h16]

/-- C2, counterexample: the 16-byte buffer `MDMP` + `00 00 00 00` +
`02 00 00 00` + `10 00 00 00` contains all four bytes of the version field,
yet the parsed header omits the version (the source's `if version:` guard
drops a zero value), while the later fields are still stored. -/
theorem c2_counterexample_zero_version_omitted :
    (parse_mdmp_header
        [0x4D, 0x44, 0x4D, 0x50, 0, 0, 0, 0, 2, 0, 0, 0, 0x10, 0, 0, 0] 4).version = none ∧
      ([0x4D, 0x44, 0x4D, 0x50, 0, 0, 0, 0, 2, 0, 0, 0, 0x10, 0, 0, 0] : List Byte).length = 16 ∧
      (parse_mdmp_header
        [0x4D, 0x44, 0x4D, 0x50, 0, 0, 0, 0, 2, 0, 0, 0, 0x10, 0, 0, 0] 4).stream_count = some 2 := by
  decide

/-- C2 (amended): a header field is present iff its four little-endian
bytes fit in the buffer *and* the decoded value is nonzero; a field that
cannot be fully read is omitted rather than zero-filled, later fields are
decided independently of earlier values, and the spec's 16-byte example
parses to version 1, streamCount 2, streamDirectoryOffset 16. -/
theorem c2_header_field_presence (data : List Byte) (v : Nat) :
    ((parse_mdmp_header data 4).version = some v ↔
      8 ≤ data.length ∧ v = le32 data 4 ∧ v ≠ 0) ∧
    ((parse_mdmp_header data 4).stream_count = some v ↔
      12 ≤ data.length ∧ v = le32 data 8 ∧ v ≠ 0) ∧
    ((parse_mdmp_header data 4).stream_directory_rva = some v ↔
      16 ≤ data.length ∧ v = le32 data 12 ∧ v ≠ 0) ∧
    parse_mdmp_header
      [0x4D, 0x44, 0x4D, 0x50, 1, 0, 0, 0, 2, 0, 0, 0, 0x10, 0, 0, 0] 4 =
      ⟨some 1, some 2, some 16⟩ := by
  rw [parse_mdmp_header_eq]
  refine ⟨ifField_some_iff, ifField_some_iff, ifField_some_iff, by decide⟩

/-- C1 (code bug): the candidate-address loop `range(0, len(data) - 8, 4)`
never visits an offset with fewer than nine bytes remaining, so the 4-byte
buffer `00 00 00 10` and the 8-byte buffer `FF .. FF` produce no candidates
at all, and even in a 12-byte buffer the in-range 32-bit values at offsets
4 and 8 are skipped — although the loop body's own `i + 8 <= len(data)`
guard only makes sense for a loop that reaches those offsets. -/
theorem c1_address_scan_skips_tail :
    analyze_potential_addresses [0x00, 0x00, 0x00, 0x10] = [] ∧
    analyze_potential_addresses (List.replicate 8 0xFF) = [] ∧
    analyze_potential_addresses
      [0x00, 0x00, 0x00, 0x10, 0, 0, 0, 0, 0x34, 0x12, 0x00, 0x20] = [0x10000000] := by
  decide

/-- C4: the signature classification is a byte-prefix test over the fixed
table; it agrees everywhere with the spec's declared priority order (the
two ELF forms match disjoint buffers and carry the same tag, so their
relative order is unobservable), yields `unknown` exactly when no table
prefix matches, and classifies the 2-byte buffer `50 4B` as a Zip archive. -/
theorem c4_format_sniffer (data : List Byte) :
    detectFileType data = detectFileTypeSpecOrder data ∧
    (detectFileType data = .unknown ↔ ∀ sd ∈ signatures, sd.1.isPrefixOf data = false) ∧
    detectFileType [0x50, 0x4B] = .zipArchive := by
  refine ⟨?_, ?_, by decide⟩
  · by_cases h1 : ([0x4D, 0x44, 0x4D, 0x50] : List Byte).isPrefixOf data <;>
      by_cases h2 : ([0x45, 0x4C, 0x46] : List Byte).isPrefixOf data <;>
        by_cases h3 : ([0x7F, 0x45, 0x4C, 0x46] : List Byte).isPrefixOf data <;>
          simp [detectFileType, detectFileTypeSpecOrder, signatures, signaturesSpecOrder,
            List.find?, h1, h2, h3]
  · rcases h : signatures.find? (fun sd => sd.1.isPrefixOf data) with _ | sd
    · simp only [detectFileType, h, true_iff]
      intro sd hsd
      have := List.find?_eq_none.mp h sd hsd
      simp only [Bool.not_eq_true] at this
      exact this
    · have hmem := List.mem_of_find?_eq_some h
      have hp := List.find?_some h
      simp only [detectFileType, h]
      constructor
      · intro hsd
        exfalso
        revert hsd hp
        fin_cases hmem <;> simp
      · intro hall
        exfalso
        have := hall sd hmem
        rw [this] at hp
        exact Bool.false_ne_true hp

/-- C5: for a nonempty encoded blob the decoder returns the first
non-declining strategy's result in the fixed order Base64, Hex, Raw
analysis; a declined strategy (failure or empty result) falls through to
the next, the raw fallback is total, and the decoder never returns `None`. -/
theorem c5_decoder_strategy_order (s : List Char) (hne : s ≠ []) :
    (decode_crashpad_data s).isSome = true ∧
    (∀ r, decode_base64 s = some r → decode_crashpad_data s = some r) ∧
    (decode_base64 s = none → ∀ r, decode_hex s = some r → decode_crashpad_data s = some r) ∧
    (decode_base64 s = none → decode_hex s = none →
      decode_crashpad_data s = some (analyze_raw_data s)) := by
  unfold decode_crashpad_data
  rw [if_neg hne]
  rcases h1 : decode_base64 s with _ | r1
  · rcases h2 : decode_hex s with _ | r2 <;> simp
  · simp

/-- Witness for `c5_decoder_strategy_order` at the concrete blob `"!!!"`:
Base64 declines (empty decode), Hex succeeds on the empty cleaned string. -/
theorem c5_decoder_strategy_order_witness :
    (decode_crashpad_data ['!', '!', '!']).isSome = true ∧
    (∀ r, decode_base64 ['!', '!', '!'] = some r →
      decode_crashpad_data ['!', '!', '!'] = some r) ∧
    (decode_base64 ['!', '!', '!'] = none → ∀ r, decode_hex ['!', '!', '!'] = some r →
      decode_crashpad_data ['!', '!', '!'] = some r) ∧
    (decode_base64 ['!', '!', '!'] = none → decode_hex ['!', '!', '!'] = none →
      decode_crashpad_data ['!', '!', '!'] = some (analyze_raw_data ['!', '!', '!'])) :=
  c5_decoder_strategy_order ['!', '!', '!'] (by decide)

/-- C3, counterexample: on the 16-byte valid-minidump buffer,
`analyze_header` takes the `_parse_mdmp_header` branch and its result
carries no entropy or repeating-pattern findings — the forensic analysis
is skipped for Minidump buffers, contrary to the claim. -/
theorem c3_counterexample_mdmp_skips_forensics :
    (analyze_header
      [0x4D, 0x44, 0x4D, 0x50, 1, 0, 0, 0, 2, 0, 0, 0, 0x10, 0, 0, 0]).hasForensics = false := by
  rfl

/-- C3 (amended): `analyze_header` computes entropy and repeating patterns
exactly for buffers that do not start with the `MDMP` signature; for
`MDMP`-prefixed buffers it returns only the parsed header and the
entropy/pattern analysis of `_analyze_unknown_format` is not performed. -/
theorem c3_header_branch_characterization (data : List Byte) :
    (mdmpSignature.isPrefixOf data = true →
      analyze_header data = .mdmp (parse_mdmp_header data 4)) ∧
    (mdmpSignature.isPrefixOf data = false →
      analyze_header data =
        .unknownFormat data.length (calculate_entropy data) (find_patterns data)) := by
  constructor
  · intro h
    have hpre : mdmpSignature <+: data := List.isPrefixOf_iff_prefix.mp h
    have hlen : 4 ≤ data.length := by
      have := hpre.length_le
      simpa [mdmpSignature] using this
    have htake : data.take 4 = mdmpSignature := by
      have := List.prefix_iff_eq_take.mp hpre
      simpa [mdmpSignature] using this.symm
    have hc : 0 + 4 ≤ data.length := by omega
    simp [analyze_header, read_bytes, hc, htake]
  · intro h
    by_cases hlen : 0 + 4 ≤ data.length
    · have hneq : data.take 4 ≠ mdmpSignature := by
        intro he
        have hpre : mdmpSignature <+: data := by
          rw [List.prefix_iff_eq_take]
          simpa [mdmpSignature] using he.symm
        rw [← List.isPrefixOf_iff_prefix] at hpre
        rw [h] at hpre
        exact Bool.false_ne_true hpre
      simp [analyze_header, read_bytes, hlen, hneq]
    · simp [analyze_header, read_bytes, hlen]

/-- Witness for `c3_header_branch_characterization`: the concrete minidump
buffer takes the header branch, the 1-byte buffer `00` takes the forensic
branch. -/
theorem c3_header_branch_witness :
    analyze_header [0x4D, 0x44, 0x4D, 0x50, 1, 0, 0, 0, 2, 0, 0, 0, 0x10, 0, 0, 0] =
      .mdmp (parse_mdmp_header
        [0x4D, 0x44, 0x4D, 0x50, 1, 0, 0, 0, 2, 0, 0, 0, 0x10, 0, 0, 0] 4) ∧
    analyze_header [0x00] =
      .unknownFormat 1 (calculate_entropy [0x00]) (find_patterns [0x00]) :=
  ⟨(c3_header_branch_characterization _).1 (by decide),
   (c3_header_branch_characterization _).2 (by decide)⟩

/-! ### Base64 round trip (C7) -/

theorem charToSextet_sextetToChar_fin :
    ∀ m : Fin 64, charToSextet (sextetToChar m.val) = some m.val := by decide

theorem charToSextet_sextetToChar {n : Nat} (h : n < 64) :
    charToSextet (sextetToChar n) = some n :=
  charToSextet_sextetToChar_fin ⟨n, h⟩

theorem sextetToChar_ne_pad_fin : ∀ m : Fin 64, sextetToChar m.val ≠ '=' := by decide

theorem sextetToChar_ne_pad {n : Nat} (h : n < 64) : sextetToChar n ≠ '=' :=
  sextetToChar_ne_pad_fin ⟨n, h⟩

theorem isB64Char_sextetToChar {n : Nat} (h : n < 64) : isB64Char (sextetToChar n) = true := by
  simp [isB64Char, charToSextet_sextetToChar h]

/-- Every character the encoder emits survives the
`re.sub(r'[^A-Za-z0-9+/=]', '', ...)` cleaning. -/
theorem mem_b64encode_isB64 : ∀ (B : List Byte) (c : Char), c ∈ b64encode B → isB64Char c = true
  | [], c, h => by simp [b64encode] at h
  | [a], c, h => by
    have ha := a.isLt
    simp only [b64encode, List.mem_cons, List.not_mem_nil, or_false, or_self] at h
    rcases h with rfl | rfl | rfl
    · exact isB64Char_sextetToChar (by omega)
    · exact isB64Char_sextetToChar (by omega)
    · decide
  | [a, b], c, h => by
    have ha := a.isLt; have hb := b.isLt
    simp only [b64encode, List.mem_cons, List.not_mem_nil, or_false, or_self] at h
    rcases h with rfl | rfl | rfl | rfl
    · exact isB64Char_sextetToChar (by omega)
    · exact isB64Char_sextetToChar (by omega)
    · exact isB64Char_sextetToChar (by omega)
    · decide
  | a :: b :: c :: rest, x, h => by
    have ha := a.isLt; have hb := b.isLt; have hc := c.isLt
    simp only [b64encode, List.mem_cons] at h
    rcases h with rfl | rfl | rfl | rfl | hmem
    · exact isB64Char_sextetToChar (by omega)
    · exact isB64Char_sextetToChar (by omega)
    · exact isB64Char_sextetToChar (by omega)
    · exact isB64Char_sextetToChar (by omega)
    · exact mem_b64encode_isB64 rest x hmem

theorem filter_b64encode (B : List Byte) : (b64encode B).filter isB64Char = b64encode B := by
  rw [List.filter_eq_self]
  exact fun c hc => mem_b64encode_isB64 B c hc

/-- Decoding inverts encoding byte-exactly. -/
theorem b64decode_b64encode : ∀ B : List Byte, b64decodeGroups (b64encode B) = some B
  | [] => rfl
  | [a] => by
    have ha := a.isLt
    show b64decodeGroups
      [sextetToChar (a.val / 4), sextetToChar ((a.val % 4) * 16), '=', '='] = some [a]
    rw [b64decodeGroups]
    rw [if_pos ⟨rfl, rfl, rfl⟩]
    rw [charToSextet_sextetToChar (by omega : a.val / 4 < 64),
      charToSextet_sextetToChar (by omega : (a.val % 4) * 16 < 64)]
    show some [mkByte (a.val / 4 * 4 + (a.val % 4) * 16 / 16)] = some [a]
    congr 1
    apply List.cons_eq_cons.mpr
    refine ⟨Fin.ext ?_, rfl⟩
    show (a.val / 4 * 4 + (a.val % 4) * 16 / 16) % 256 = a.val
    omega
  | [a, b] => by
    have ha := a.isLt; have hb := b.isLt
    show b64decodeGroups
      [sextetToChar (a.val / 4), sextetToChar ((a.val % 4) * 16 + b.val / 16),
        sextetToChar ((b.val % 16) * 4), '='] = some [a, b]
    rw [b64decodeGroups]
    rw [if_neg (fun hand => sextetToChar_ne_pad (by omega : (b.val % 16) * 4 < 64) hand.1)]
    rw [if_pos ⟨rfl, rfl⟩]
    rw [charToSextet_sextetToChar (by omega : a.val / 4 < 64),
      charToSextet_sextetToChar (by omega : (a.val % 4) * 16 + b.val / 16 < 64),
      charToSextet_sextetToChar (by omega : (b.val % 16) * 4 < 64)]
    have e1 : mkByte (a.val / 4 * 4 + ((a.val % 4) * 16 + b.val / 16) / 16) = a := by
      apply Fin.ext
      show (a.val / 4 * 4 + ((a.val % 4) * 16 + b.val / 16) / 16) % 256 = a.val
      omega
    have e2 : mkByte (((a.val % 4) * 16 + b.val / 16) % 16 * 16 + (b.val % 16) * 4 / 4) = b := by
      apply Fin.ext
      show (((a.val % 4) * 16 + b.val / 16) % 16 * 16 + (b.val % 16) * 4 / 4) % 256 = b.val
      omega
    show some [mkByte (a.val / 4 * 4 + ((a.val % 4) * 16 + b.val / 16) / 16),
      mkByte (((a.val % 4) * 16 + b.val / 16) % 16 * 16 + (b.val % 16) * 4 / 4)] = some [a, b]
    rw [e1, e2]
  | a :: b :: c :: rest => by
    have ha := a.isLt; have hb := b.isLt; have hc := c.isLt
    have IH := b64decode_b64encode rest
    show b64decodeGroups
      (sextetToChar (a.val / 4) :: sextetToChar ((a.val % 4) * 16 + b.val / 16) ::
        sextetToChar ((b.val % 16) * 4 + c.val / 64) :: sextetToChar (c.val % 64) ::
        b64encode rest) = some (a :: b :: c :: rest)
    rw [b64decodeGroups]
    rw [if_neg (fun hand =>
      sextetToChar_ne_pad (by omega : (b.val % 16) * 4 + c.val / 64 < 64) hand.1)]
    rw [if_neg (fun hand => sextetToChar_ne_pad (by omega : c.val % 64 < 64) hand.1)]
    rw [charToSextet_sextetToChar (by omega : a.val / 4 < 64),
      charToSextet_sextetToChar (by omega : (a.val % 4) * 16 + b.val / 16 < 64),
      charToSextet_sextetToChar (by omega : (b.val % 16) * 4 + c.val / 64 < 64),
      charToSextet_sextetToChar (by omega : c.val % 64 < 64), IH]
    have e1 : mkByte (a.val / 4 * 4 + ((a.val % 4) * 16 + b.val / 16) / 16) = a := by
      apply Fin.ext
      show (a.val / 4 * 4 + ((a.val % 4) * 16 + b.val / 16) / 16) % 256 = a.val
      omega
    have e2 : mkByte (((a.val % 4) * 16 + b.val / 16) % 16 * 16 +
        ((b.val % 16) * 4 + c.val / 64) / 4) = b := by
      apply Fin.ext
      show (((a.val % 4) * 16 + b.val / 16) % 16 * 16 +
        ((b.val % 16) * 4 + c.val / 64) / 4) % 256 = b.val
      omega
    have e3 : mkByte (((b.val % 16) * 4 + c.val / 64) % 4 * 64 + c.val % 64) = c := by
      apply Fin.ext
      show (((b.val % 16) * 4 + c.val / 64) % 4 * 64 + c.val % 64) % 256 = c.val
      omega
    show some (mkByte (a.val / 4 * 4 + ((a.val % 4) * 16 + b.val / 16) / 16) ::
      mkByte (((a.val % 4) * 16 + b.val / 16) % 16 * 16 +
        ((b.val % 16) * 4 + c.val / 64) / 4) ::
      mkByte (((b.val % 16) * 4 + c.val / 64) % 4 * 64 + c.val % 64) :: rest) =
      some (a :: b :: c :: rest)
    rw [e1, e2, e3]

/-- C7: Base64-encoding any nonempty byte buffer and feeding the text to
the decoder's Base64 strategy (cleaning included) reproduces exactly the
original buffer. -/
theorem c7_base64_roundtrip (B : List Byte) (h : B ≠ []) :
    decode_base64 (b64encode B) = some (DecodeResult.binary B) := by
  unfold decode_base64
  rw [filter_b64encode, b64decode_b64encode]
  simp [h]

/-- Witness for `c7_base64_roundtrip` at the buffer `4D 44 4D 50 01`. -/
theorem c7_base64_roundtrip_witness :
    decode_base64 (b64encode [0x4D, 0x44, 0x4D, 0x50, 0x01]) =
      some (DecodeResult.binary [0x4D, 0x44, 0x4D, 0x50, 0x01]) :=
  c7_base64_roundtrip [0x4D, 0x44, 0x4D, 0x50, 0x01] (by decide)

/-! ### Entropy (C6) -/

theorem sum_count_univ (l : List Byte) : ∑ b : Byte, l.count b = l.length := by
  have h1 : ∑ b in l.toFinset, l.count b = l.length := by
    have := Multiset.toFinset_sum_count_eq (l : Multiset Byte)
    simp only [Multiset.coe_count, Multiset.coe_card] at this
    exact this
  have h2 : ∑ b : Byte, l.count b = ∑ b in l.toFinset, l.count b := by
    symm
    apply Finset.sum_subset (Finset.subset_univ _)
    intro x _ hx
    simp only [List.mem_toFinset] at hx
    exact List.count_eq_zero_of_not_mem hx
  rw [h2, h1]

theorem entropy_nonneg (data : List Byte) : 0 ≤ calculate_entropy data := by
  unfold calculate_entropy
  split
  · exact le_refl 0
  · rename_i hne
    apply Finset.sum_nonneg
    intro b _
    split
    · rename_i hcount
      have hn : 0 < data.length := List.length_pos.mpr hne
      have hp0 : (0:ℝ) < data.count b / data.length := by
        apply div_pos <;> exact_mod_cast (by assumption)
      have hp1 : (data.count b / data.length : ℝ) ≤ 1 := by
        rw [div_le_one (by exact_mod_cast hn)]
        exact_mod_cast List.count_le_length b data
      have hlb := Real.logb_nonpos (by norm_num : (1:ℝ) < 2) hp0.le hp1
      exact neg_nonneg.mpr (mul_nonpos_of_nonneg_of_nonpos hp0.le hlb)
    · exact le_refl 0

theorem entropy_le_eight (data : List Byte) : calculate_entropy data ≤ 8 := by
  unfold calculate_entropy
  split
  · norm_num
  · rename_i hne
    have hn : 0 < data.length := List.length_pos.mpr hne
    have hnpos : (0:ℝ) < (data.length : ℝ) := by exact_mod_cast hn
    have hlog2pos : (0:ℝ) < Real.log 2 := Real.log_pos (by norm_num)
    classical
    rw [← Finset.sum_filter
      (fun b => 0 < data.count b)
      (fun b => -((data.count b / data.length : ℝ) *
        Real.logb 2 (data.count b / data.length)))]
    have hppos : ∀ b ∈ Finset.univ.filter (fun b : Byte => 0 < data.count b),
        (0:ℝ) < data.count b / data.length := by
      intro b hb
      have := (Finset.mem_filter.mp hb).2
      apply div_pos <;> exact_mod_cast (by assumption)
    have hterm : ∀ b ∈ Finset.univ.filter (fun b : Byte => 0 < data.count b),
        -((data.count b / data.length : ℝ) * Real.logb 2 (data.count b / data.length)) =
          ((data.count b / data.length : ℝ) •
            Real.log ((data.count b / data.length : ℝ)⁻¹)) / Real.log 2 := by
      intro b hb
      rw [Real.log_inv]
      simp only [Real.logb, smul_eq_mul]
      ring
    rw [Finset.sum_congr rfl hterm, ← Finset.sum_div]
    rw [div_le_iff₀ hlog2pos]
    have hw0 : ∀ b ∈ Finset.univ.filter (fun b : Byte => 0 < data.count b),
        (0:ℝ) ≤ data.count b / data.length := fun b hb => (hppos b hb).le
    have hw1 : ∑ b in Finset.univ.filter (fun b : Byte => 0 < data.count b),
        (data.count b / data.length : ℝ) = 1 := by
      rw [← Finset.sum_div]
      have hsub : ∑ b in Finset.univ.filter (fun b : Byte => 0 < data.count b),
          (data.count b : ℝ) = ∑ b : Byte, (data.count b : ℝ) := by
        apply Finset.sum_subset (Finset.filter_subset _ _)
        intro x _ hx
        simp only [Finset.mem_filter, Finset.mem_univ, true_and, not_lt,
          Nat.le_zero] at hx
        simp [hx]
      rw [hsub, ← Nat.cast_sum, sum_count_univ]
      exact div_self hnpos.ne'
    have hmem : ∀ b ∈ Finset.univ.filter (fun b : Byte => 0 < data.count b),
        ((data.count b / data.length : ℝ)⁻¹) ∈ Set.Ioi (0:ℝ) :=
      fun b hb => Set.mem_Ioi.mpr (inv_pos.mpr (hppos b hb))
    have jensen := (strictConcaveOn_log_Ioi.concaveOn).le_map_sum hw0 hw1 hmem
    refine le_trans jensen ?_
    have hsum_inv : ∑ b in Finset.univ.filter (fun b : Byte => 0 < data.count b),
        (data.count b / data.length : ℝ) • ((data.count b / data.length : ℝ)⁻¹) =
          (Finset.univ.filter (fun b : Byte => 0 < data.count b)).card := by
      rw [Finset.sum_congr rfl
        (fun b hb => by rw [smul_eq_mul, mul_inv_cancel₀ (hppos b hb).ne'])]
      simp
    rw [hsum_inv]
    have hcard_le : ((Finset.univ.filter (fun b : Byte => 0 < data.count b)).card : ℝ) ≤ 256 := by
      have := Finset.card_le_univ (Finset.univ.filter (fun b : Byte => 0 < data.count b))
      have h256 : Fintype.card Byte = 256 := Fintype.card_fin 256
      rw [h256] at this
      exact_mod_cast this
    have hcard_pos : (0:ℝ) < (Finset.univ.filter (fun b : Byte => 0 < data.count b)).card := by
      obtain ⟨x, hx⟩ := List.exists_mem_of_ne_nil data hne
      have hxmem : x ∈ Finset.univ.filter (fun b : Byte => 0 < data.count b) :=
        Finset.mem_filter.mpr ⟨Finset.mem_univ x, List.count_pos_iff.mpr hx⟩
      exact_mod_cast Finset.card_pos.mpr ⟨x, hxmem⟩
    calc Real.log ((Finset.univ.filter (fun b : Byte => 0 < data.count b)).card)
        ≤ Real.log 256 := Real.log_le_log hcard_pos hcard_le
      _ = 8 * Real.log 2 := by
          have : (256:ℝ) = 2 ^ (8:ℕ) := by norm_num
          rw [this, Real.log_pow]; norm_num

theorem entropy_replicate (n : Nat) (b : Byte) :
    calculate_entropy (List.replicate n b) = 0 := by
  unfold calculate_entropy
  rcases Nat.eq_zero_or_pos n with rfl | hn
  · simp
  · rw [if_neg (by simp [List.replicate_eq_nil_iff]; omega)]
    apply Finset.sum_eq_zero
    intro x _
    rw [List.count_replicate]
    by_cases hx : (b == x) = true
    · rw [if_pos hx]
      rw [if_pos (by exact_mod_cast hn)]
      simp only [List.length_replicate]
      rw [div_self (by exact_mod_cast hn.ne' : (n:ℝ) ≠ 0), Real.logb_one]
      ring
    · rw [if_neg hx]
      simp

theorem entropy_uniform (data : List Byte) (h : ∀ b : Byte, data.count b = 1) :
    calculate_entropy data = 8 := by
  have hlen : data.length = 256 := by
    rw [← sum_count_univ]
    simp [h]
  unfold calculate_entropy
  rw [if_neg (by intro he; rw [he] at hlen; simp at hlen)]
  have hterm : ∀ x : Byte, x ∈ Finset.univ →
      (if 0 < data.count x then
        -((data.count x / data.length : ℝ) * Real.logb 2 (data.count x / data.length))
       else 0) = 1/32 := by
    intro x _
    rw [h x, hlen]
    rw [if_pos (by norm_num)]
    have hlb : Real.logb 2 ((1:ℝ)/256) = -8 := by
      rw [one_div, Real.logb, Real.log_inv]
      have h256 : (256:ℝ) = 2 ^ (8:ℕ) := by norm_num
      rw [h256, Real.log_pow]
      have h2 : Real.log 2 ≠ 0 := by
        have := Real.log_pos (by norm_num : (1:ℝ) < 2); linarith
      field_simp
    push_cast
    rw [hlb]
    norm_num
  rw [Finset.sum_congr rfl hterm]
  simp [Finset.card_univ, Fintype.card_fin]
  norm_num

/-- C6: the computed Shannon entropy lies in `[0, 8]` for every byte
buffer; the empty buffer and every constant buffer have entropy 0, and a
buffer containing each of the 256 byte values exactly once has entropy 8. -/
theorem c6_entropy_bounds :
    (∀ data : List Byte, 0 ≤ calculate_entropy data ∧ calculate_entropy data ≤ 8) ∧
    calculate_entropy [] = 0 ∧
    (∀ (n : Nat) (b : Byte), calculate_entropy (List.replicate n b) = 0) ∧
    (∀ data : List Byte, (∀ b : Byte, data.count b = 1) → calculate_entropy data = 8) :=
  ⟨fun d => ⟨entropy_nonneg d, entropy_le_eight d⟩, by simp [calculate_entropy],
   entropy_replicate, entropy_uniform⟩

/-- Witness for `c6_entropy_bounds`: concrete instances, with the
all-bytes-once hypothesis discharged on `List.finRange 256`. -/
theorem c6_entropy_bounds_witness :
    (0 ≤ calculate_entropy [0x41, 0x42] ∧ calculate_entropy [0x41, 0x42] ≤ 8) ∧
    calculate_entropy (List.replicate 3 0x41) = 0 ∧
    calculate_entropy (List.finRange 256) = 8 :=
  ⟨c6_entropy_bounds.1 [0x41, 0x42], c6_entropy_bounds.2.2.1 3 0x41,
   c6_entropy_bounds.2.2.2 (List.finRange 256)
     (fun b => List.count_eq_one_of_mem (List.nodup_finRange 256) (List.mem_finRange b))⟩

/-! ### Pattern mining (C8) -/

/-- One `bump` preserves the dict invariant: entries are exactly the seen
windows paired with their counts so far. -/
theorem bump_mem_iff (acc : List (List Byte × Nat)) (V : List (List Byte))
    (hInv : ∀ p c, (p, c) ∈ acc ↔ p ∈ V ∧ c = V.count p) (w : List Byte) :
    ∀ p c, (p, c) ∈ bump acc w ↔ p ∈ V ++ [w] ∧ c = (V ++ [w]).count p := by
  intro p c
  unfold bump
  by_cases hany : acc.any (fun e => decide (e.1 = w)) = true
  · rw [if_pos hany]
    have hwV : w ∈ V := by
      rcases List.any_eq_true.mp hany with ⟨e, he, hde⟩
      have he1 : e.1 = w := of_decide_eq_true hde
      have he' : (e.1, e.2) ∈ acc := he
      have hmem := ((hInv e.1 e.2).mp he').1
      rwa [he1] at hmem
    by_cases hp : p = w
    · subst hp
      constructor
      · intro hmem
        rcases List.mem_map.mp hmem with ⟨e, he, hfe⟩
        by_cases he1 : e.1 = p
        · rw [if_pos he1] at hfe
          have hc : c = e.2 + 1 := (Prod.mk.injEq _ _ _ _ ▸ hfe).2.symm
          have he' : (e.1, e.2) ∈ acc := he
          have hec := ((hInv e.1 e.2).mp he').2
          rw [he1] at hec
          refine ⟨List.mem_append.mpr (Or.inl hwV), ?_⟩
          have hcount : (V ++ [p]).count p = V.count p + 1 := by
            rw [List.count_append, List.count_cons]
            simp
          rw [hcount]
          omega
        · rw [if_neg he1] at hfe
          exact absurd (congrArg Prod.fst hfe) (by simpa using he1)
      · rintro ⟨-, hc⟩
        have hcount : (V ++ [p]).count p = V.count p + 1 := by
          rw [List.count_append, List.count_cons]
          simp
        apply List.mem_map.mpr
        refine ⟨(p, V.count p), (hInv p (V.count p)).mpr ⟨hwV, rfl⟩, ?_⟩
        rw [if_pos rfl]
        rw [hc, hcount]
    · constructor
      · intro hmem
        rcases List.mem_map.mp hmem with ⟨e, he, hfe⟩
        by_cases he1 : e.1 = w
        · rw [if_pos he1] at hfe
          have hfst : e.1 = p := congrArg Prod.fst hfe
          exact absurd (hfst.symm.trans he1) hp
        · rw [if_neg he1] at hfe
          have := (hInv p c).mp (hfe ▸ he)
          refine ⟨List.mem_append.mpr (Or.inl this.1), ?_⟩
          rw [List.count_append, List.count_cons]
          simp only [List.count_nil, beq_iff_eq]
          rw [if_neg (fun h => hp h.symm)]
          omega
      · rintro ⟨hmem, hc⟩
        have hpV : p ∈ V := by
          rcases List.mem_append.mp hmem with h | h
          · exact h
          · simp at h; exact absurd h hp
        have hcV : c = V.count p := by
          rw [List.count_append, List.count_cons] at hc
          simp only [List.count_nil, beq_iff_eq] at hc
          rw [if_neg (fun h => hp h.symm)] at hc
          omega
        apply List.mem_map.mpr
        refine ⟨(p, c), (hInv p c).mpr ⟨hpV, hcV⟩, ?_⟩
        rw [if_neg (by simpa using hp)]
  · rw [if_neg hany]
    have hwV : w ∉ V := by
      intro hw
      apply hany
      exact List.any_eq_true.mpr
        ⟨(w, V.count w), (hInv w (V.count w)).mpr ⟨hw, rfl⟩, decide_eq_true rfl⟩
    constructor
    · intro hmem
      rcases List.mem_append.mp hmem with h | h
      · have := (hInv p c).mp h
        refine ⟨List.mem_append.mpr (Or.inl this.1), ?_⟩
        have hpw : p ≠ w := fun he => hwV (he ▸ this.1)
        rw [List.count_append, List.count_cons]
        simp only [List.count_nil, beq_iff_eq]
        rw [if_neg (fun h => hpw h.symm)]
        omega
      · simp only [List.mem_singleton, Prod.mk.injEq] at h
        obtain ⟨rfl, rfl⟩ := h
        refine ⟨List.mem_append.mpr (Or.inr (by simp)), ?_⟩
        rw [List.count_append, List.count_cons]
        simp [List.count_eq_zero.mpr hwV]
    · rintro ⟨hmem, hc⟩
      by_cases hp : p = w
      · subst hp
        have hc1 : c = 1 := by
          rw [List.count_append, List.count_cons] at hc
          simp [List.count_eq_zero.mpr hwV] at hc
          omega
        subst hc1
        exact List.mem_append.mpr (Or.inr (by simp))
      · have hpV : p ∈ V := by
          rcases List.mem_append.mp hmem with h | h
          · exact h
          · simp at h; exact absurd h hp
        have hcV : c = V.count p := by
          rw [List.count_append, List.count_cons] at hc
          simp only [List.count_nil, beq_iff_eq] at hc
          rw [if_neg (fun h => hp h.symm)] at hc
          omega
        exact List.mem_append.mpr (Or.inl ((hInv p c).mpr ⟨hpV, hcV⟩))

/-- The dict fold over a window list tallies exact occurrence counts. -/
theorem tally_mem_iff :
    ∀ (W : List (List Byte)) (acc : List (List Byte × Nat)) (V : List (List Byte)),
      (∀ p c, (p, c) ∈ acc ↔ p ∈ V ∧ c = V.count p) →
      ∀ p c, (p, c) ∈ W.foldl bump acc ↔ p ∈ V ++ W ∧ c = (V ++ W).count p
  | [], acc, V, hInv, p, c => by simpa using hInv p c
  | w :: W, acc, V, hInv, p, c => by
    have step := bump_mem_iff acc V hInv w
    have rec := tally_mem_iff W (bump acc w) (V ++ [w]) step p c
    show (p, c) ∈ W.foldl bump (bump acc w) ↔ _
    rw [rec]
    constructor
    · rintro ⟨hmem, hc⟩
      refine ⟨by simpa [List.append_assoc] using hmem, by simpa [List.append_assoc] using hc⟩
    · rintro ⟨hmem, hc⟩
      refine ⟨by simpa [List.append_assoc] using hmem, by simpa [List.append_assoc] using hc⟩

theorem tally_nil_mem_iff (W : List (List Byte)) (p : List Byte) (c : Nat) :
    (p, c) ∈ W.foldl bump [] ↔ p ∈ W ∧ c = W.count p := by
  have := tally_mem_iff W [] [] (by simp) p c
  simpa using this

/-- Every window of length `L` really has length `L`. -/
theorem length_of_mem_windowsOfLen {data : List Byte} {L : Nat} {q : List Byte}
    (h : q ∈ windowsOfLen data L) : q.length = L := by
  unfold windowsOfLen at h
  rcases List.mem_map.mp h with ⟨i, hi, rfl⟩
  have hi' := List.mem_range.mp hi
  unfold sliceAt
  rw [List.length_take, List.length_drop]
  omega

/-- The number of windows equal to `p` is the true occurrence count. -/
theorem count_windowsOfLen (data : List Byte) (p : List Byte) :
    (windowsOfLen data p.length).count p = occCount data p := by
  unfold windowsOfLen occCount
  rw [List.count_eq_countP, List.countP_map]
  rcases le_or_lt p.length data.length with hL | hL
  · set M := data.length + 1 - p.length with hM
    have hsplit : data.length + 1 = M + p.length := by omega
    rw [hsplit, List.range_add, List.countP_append]
    have h2 : List.countP
        (fun i => decide (i + p.length ≤ data.length) &&
          decide (sliceAt data i p.length = p))
        ((List.range p.length).map (fun x => M + x)) = 0 := by
      apply List.countP_eq_zero.mpr
      intro a ha
      rcases List.mem_map.mp ha with ⟨x, _, rfl⟩
      simp only [Bool.and_eq_true, decide_eq_true_eq, not_and]
      intro hle
      omega
    rw [h2, Nat.add_zero]
    apply List.countP_congr
    intro i hi
    have hi' := List.mem_range.mp hi
    simp only [Function.comp_apply, Bool.and_eq_true, decide_eq_true_eq, beq_iff_eq]
    constructor
    · intro he; exact ⟨by omega, he⟩
    · intro ⟨_, he⟩; exact he
  · have h1 : data.length + 1 - p.length = 0 := by omega
    rw [h1]
    simp only [List.range_zero, List.countP_nil]
    symm
    apply List.countP_eq_zero.mpr
    intro a _
    simp only [Bool.and_eq_true, decide_eq_true_eq, not_and]
    intro hle
    omega

theorem length_mem_allWindows {data q : List Byte} (h : q ∈ allWindows data) :
    q.length = 2 ∨ q.length = 3 ∨ q.length = 4 := by
  unfold allWindows at h
  rcases List.mem_append.mp h with h | h
  · rcases List.mem_append.mp h with h | h
    · exact Or.inl (length_of_mem_windowsOfLen h)
    · exact Or.inr (Or.inl (length_of_mem_windowsOfLen h))
  · exact Or.inr (Or.inr (length_of_mem_windowsOfLen h))

theorem count_allWindows (data p : List Byte)
    (hL : p.length = 2 ∨ p.length = 3 ∨ p.length = 4) :
    (allWindows data).count p = occCount data p := by
  unfold allWindows
  rw [List.count_append, List.count_append]
  have hz : ∀ L : Nat, p.length ≠ L → (windowsOfLen data L).count p = 0 := by
    intro L hne
    rw [List.count_eq_zero]
    intro hmem
    exact hne (length_of_mem_windowsOfLen hmem)
  rcases hL with h | h | h
  · rw [hz 3 (by omega), hz 4 (by omega), ← h, count_windowsOfLen]
    omega
  · rw [hz 2 (by omega), hz 4 (by omega), ← h, count_windowsOfLen]
    omega
  · rw [hz 2 (by omega), hz 3 (by omega), ← h, count_windowsOfLen]
    omega

theorem mem_insertByCount (x z : List Byte × Nat) (l : List (List Byte × Nat)) :
    z ∈ insertByCount x l ↔ z = x ∨ z ∈ l := by
  induction l with
  | nil => simp [insertByCount]
  | cons y ys ih =>
    unfold insertByCount
    split
    · simp [List.mem_cons]
    · simp only [List.mem_cons, ih]
      tauto

theorem mem_sortByCountDesc (z : List Byte × Nat) (l : List (List Byte × Nat)) :
    z ∈ sortByCountDesc l ↔ z ∈ l := by
  induction l with
  | nil => simp [sortByCountDesc]
  | cons x xs ih =>
    unfold sortByCountDesc
    rw [mem_insertByCount, ih, List.mem_cons]

theorem pairwise_insertByCount (x : List Byte × Nat) (l : List (List Byte × Nat))
    (h : l.Pairwise (fun a b => b.2 ≤ a.2)) :
    (insertByCount x l).Pairwise (fun a b => b.2 ≤ a.2) := by
  induction l with
  | nil => simp [insertByCount]
  | cons y ys ih =>
    unfold insertByCount
    rcases List.pairwise_cons.mp h with ⟨hy, hys⟩
    split
    · rename_i hle
      apply List.pairwise_cons.mpr
      refine ⟨?_, h⟩
      intro z hz
      rcases List.mem_cons.mp hz with rfl | hz'
      · exact hle
      · exact le_trans (hy z hz') hle
    · rename_i hgt
      apply List.pairwise_cons.mpr
      refine ⟨?_, ih hys⟩
      intro z hz
      rcases (mem_insertByCount x z ys).mp hz with rfl | hz'
      · omega
      · exact hy z hz'

theorem pairwise_sortByCountDesc (l : List (List Byte × Nat)) :
    (sortByCountDesc l).Pairwise (fun a b => b.2 ≤ a.2) := by
  induction l with
  | nil => simp [sortByCountDesc]
  | cons x xs ih => exact pairwise_insertByCount x _ ih

/-- C8, counterexample: on the buffer `61 61 62 61 61 62` (`aabaab`) the
patterns `aa`, `ab`, `aab` all occur twice; the output keeps the dict's
first-insertion order among the tie (all length-2 windows were inserted
before any length-3 window), so it is *not* ordered by pattern length
descending within equal counts, as the claim requires. -/
theorem c8_counterexample_tie_not_length_desc :
    ¬ (find_patterns [97, 97, 98, 97, 97, 98]).Pairwise
        (fun a b => b.2 < a.2 ∨ (a.2 = b.2 ∧ b.1.length ≤ a.1.length)) := by decide

/-- C8 (amended): `_find_patterns` returns exactly the contiguous slices of
lengths 2, 3, 4 whose occurrence count over the whole buffer (overlapping
windows included) exceeds 1, each paired with its true count, sorted by
count descending; ties between equal counts keep the dict's first-insertion
scan order (shorter lengths first), not pattern length descending. -/
theorem c8_find_patterns_characterization (data : List Byte) :
    (∀ p c, (p, c) ∈ find_patterns data ↔
      ((p.length = 2 ∨ p.length = 3 ∨ p.length = 4) ∧ c = occCount data p ∧ 1 < c)) ∧
    (find_patterns data).Pairwise (fun a b => b.2 ≤ a.2) := by
  constructor
  · intro p c
    unfold find_patterns
    rw [mem_sortByCountDesc, List.mem_filter]
    rw [tally_nil_mem_iff]
    constructor
    · rintro ⟨⟨hmem, hc⟩, hgt⟩
      have hL := length_mem_allWindows hmem
      have hocc := count_allWindows data p hL
      simp only [decide_eq_true_eq] at hgt
      exact ⟨hL, by omega, hgt⟩
    · rintro ⟨hL, hc, hgt⟩
      have hocc := count_allWindows data p hL
      have hmem : p ∈ allWindows data := by
        rw [← List.count_pos_iff]
        omega
      exact ⟨⟨hmem, by omega⟩, by simpa using hgt⟩
  · exact pairwise_sortByCountDesc _

/-! ### Extractor (C9, C10) -/

/-- One unfolding step of the scanner at positive fuel. -/
theorem findallFuel_succ (fuel : Nat) (c : Char) (rest : List Char) :
    findallFuel (fuel + 1) (c :: rest) =
      if markerStr.isPrefixOf (c :: rest) = true then
        match ((c :: rest).drop markerStr.length).takeWhile payloadChar with
        | [] => findallFuel fuel rest
        | run => run :: findallFuel fuel
            (((c :: rest).drop markerStr.length).dropWhile payloadChar)
      else findallFuel fuel rest := rfl

/-- The scanner's result does not depend on the fuel, as long as the fuel
covers the length of the text. -/
theorem findallFuel_congr (f1 : Nat) :
    ∀ (s : List Char) (f2 : Nat), s.length ≤ f1 → s.length ≤ f2 →
      findallFuel f1 s = findallFuel f2 s := by
  induction f1 with
  | zero =>
    intro s f2 h1 _
    have hs : s = [] := List.length_eq_zero.mp (by omega)
    subst hs
    cases f2 <;> rfl
  | succ g1 IH =>
    intro s f2 h1 h2
    cases s with
    | nil => cases f2 <;> rfl
    | cons c rest =>
      cases f2 with
      | zero => simp at h2
      | succ g2 =>
        rw [findallFuel_succ, findallFuel_succ]
        have hrest : rest.length ≤ g1 := by simp at h1; omega
        have hrest2 : rest.length ≤ g2 := by simp at h2; omega
        have hmlen : markerStr.length = 12 := by decide
        have hdroplen : (((c :: rest).drop markerStr.length).dropWhile payloadChar).length ≤
            ((c :: rest).drop markerStr.length).length :=
          (List.dropWhile_suffix payloadChar).length_le
        have hdl : (((c :: rest).drop markerStr.length).dropWhile payloadChar).length ≤ g1 := by
          rw [List.length_drop] at hdroplen
          simp only [List.length_cons] at hdroplen h1
          omega
        have hdl2 : (((c :: rest).drop markerStr.length).dropWhile payloadChar).length ≤ g2 := by
          rw [List.length_drop] at hdroplen
          simp only [List.length_cons] at hdroplen h2
          omega
        by_cases hpre : markerStr.isPrefixOf (c :: rest) = true
        · rw [if_pos hpre, if_pos hpre]
          cases hrun : ((c :: rest).drop markerStr.length).takeWhile payloadChar with
          | nil => exact IH rest g2 hrest hrest2
          | cons a as =>
            exact congrArg _ (IH _ g2 hdl hdl2)
        · rw [if_neg hpre, if_neg hpre]
          exact IH rest g2 hrest hrest2

theorem findallCrashpad_cons_no_marker (c : Char) (rest : List Char)
    (h : markerStr.isPrefixOf (c :: rest) = false) :
    findallCrashpad (c :: rest) = findallCrashpad rest := by
  show findallFuel (rest.length + 1) (c :: rest) = findallFuel rest.length rest
  rw [findallFuel_succ, if_neg (by simp [h])]

theorem findallCrashpad_cons_marker_nilrun (c : Char) (rest : List Char)
    (h : markerStr.isPrefixOf (c :: rest) = true)
    (hrun : ((c :: rest).drop markerStr.length).takeWhile payloadChar = []) :
    findallCrashpad (c :: rest) = findallCrashpad rest := by
  show findallFuel (rest.length + 1) (c :: rest) = findallFuel rest.length rest
  rw [findallFuel_succ, if_pos h, hrun]

theorem findallCrashpad_cons_marker_run (c : Char) (rest : List Char) (a : Char)
    (as : List Char) (h : markerStr.isPrefixOf (c :: rest) = true)
    (hrun : ((c :: rest).drop markerStr.length).takeWhile payloadChar = a :: as) :
    findallCrashpad (c :: rest) =
      (a :: as) ::
        findallCrashpad (((c :: rest).drop markerStr.length).dropWhile payloadChar) := by
  show findallFuel (rest.length + 1) (c :: rest) = _
  rw [findallFuel_succ, if_pos h, hrun]
  show (a :: as) :: findallFuel rest.length
      (((c :: rest).drop markerStr.length).dropWhile payloadChar) =
    (a :: as) :: findallCrashpad (((c :: rest).drop markerStr.length).dropWhile payloadChar)
  congr 1
  apply findallFuel_congr
  · have hdroplen : (((c :: rest).drop markerStr.length).dropWhile payloadChar).length ≤
        ((c :: rest).drop markerStr.length).length :=
      (List.dropWhile_suffix payloadChar).length_le
    rw [List.length_drop] at hdroplen
    have hmlen : markerStr.length = 12 := by decide
    simp only [List.length_cons] at hdroplen
    omega
  · exact le_refl _

/-- The scanner finds a match exactly when the text decomposes as
`pre ++ marker ++ c :: rest` with `c` accepted by `[^$\n]`. -/
theorem findallCrashpad_ne_nil_iff (log : List Char) :
    findallCrashpad log ≠ [] ↔
      ∃ pre c rest, payloadChar c = true ∧ log = pre ++ markerStr ++ c :: rest := by
  induction log with
  | nil =>
    constructor
    · intro h; exact absurd rfl h
    · rintro ⟨pre, c, rest, hc, heq⟩
      have hl := congrArg List.length heq
      simp [markerStr] at hl
      exact absurd hl (by omega)
  | cons c0 rest ih =>
    by_cases hpre : markerStr.isPrefixOf (c0 :: rest) = true
    · cases hrun : ((c0 :: rest).drop markerStr.length).takeWhile payloadChar with
      | nil =>
        rw [findallCrashpad_cons_marker_nilrun c0 rest hpre hrun, ih]
        constructor
        · rintro ⟨pre, c, r, hc, rfl⟩
          exact ⟨c0 :: pre, c, r, hc, rfl⟩
        · rintro ⟨pre, c, r, hc, heq⟩
          cases pre with
          | nil =>
            exfalso
            simp only [List.nil_append] at heq
            have hafter : (c0 :: rest).drop markerStr.length = c :: r := by
              rw [heq]
              exact List.drop_left _ _
            rw [hafter, List.takeWhile_cons_of_pos hc] at hrun
            cases hrun
          | cons p0 pre' =>
            simp only [List.cons_append, List.cons.injEq] at heq
            exact ⟨pre', c, r, hc, heq.2⟩
      | cons a as =>
        rw [findallCrashpad_cons_marker_run c0 rest a as hpre hrun]
        constructor
        · intro _
          obtain ⟨t, ht⟩ := List.isPrefixOf_iff_prefix.mp hpre
          have hafter : (c0 :: rest).drop markerStr.length = t := by
            rw [← ht]
            exact List.drop_left _ _
          have hsplit := List.takeWhile_append_dropWhile payloadChar
            ((c0 :: rest).drop markerStr.length)
          rw [hrun, hafter] at hsplit
          have hpa : payloadChar a = true := by
            apply List.mem_takeWhile_imp (l := (c0 :: rest).drop markerStr.length)
            rw [hrun]; exact List.mem_cons_self a as
          refine ⟨[], a, as ++ ((c0 :: rest).drop markerStr.length).dropWhile payloadChar,
            hpa, ?_⟩
          rw [List.nil_append, hafter, ← ht]
          congr 1
          exact hsplit.symm
        · intro _
          exact List.cons_ne_nil _ _
    · rw [findallCrashpad_cons_no_marker c0 rest ((Bool.not_eq_true _) ▸ hpre), ih]
      constructor
      · rintro ⟨pre, c, r, hc, rfl⟩
        exact ⟨c0 :: pre, c, r, hc, rfl⟩
      · rintro ⟨pre, c, r, hc, heq⟩
        cases pre with
        | nil =>
          exfalso
          simp only [List.nil_append] at heq
          exact hpre (List.isPrefixOf_iff_prefix.mpr ⟨c :: r, heq.symm⟩)
        | cons p0 pre' =>
          simp only [List.cons_append, List.cons.injEq] at heq
          exact ⟨pre', c, r, hc, heq.2⟩

/-- The head of a `dropWhile` fails the predicate. -/
theorem head_dropWhile_false (p : Char → Bool) (l : List Char) :
    ∀ h ∈ (l.dropWhile p).head?, p h = false := by
  induction l with
  | nil => simp
  | cons x xs ih =>
    rw [List.dropWhile_cons]
    split
    · exact ih
    · rename_i hx
      intro h hh
      simp only [List.head?_cons, Option.mem_def, Option.some_inj] at hh
      subst hh
      exact (Bool.not_eq_true _) ▸ hx

/-- `str.strip()` output carries no leading or trailing stripped character. -/
theorem stripChars_ends (s : List Char) :
    (∀ h ∈ (stripChars s).head?, isSpaceChar h = false) ∧
    (∀ h ∈ (stripChars s).getLast?, isSpaceChar h = false) := by
  unfold stripChars
  constructor
  · intro h hh
    rcases hs2 : (s.dropWhile isSpaceChar).reverse.dropWhile isSpaceChar with _ | ⟨x, xs⟩
    · rw [hs2] at hh; simp at hh
    · -- the reversed suffix is a prefix of the left-trimmed list
      obtain ⟨t, ht⟩ : ∃ t, t ++ (x :: xs) = (s.dropWhile isSpaceChar).reverse := by
        have := List.dropWhile_suffix (l := (s.dropWhile isSpaceChar).reverse) isSpaceChar
        rw [hs2] at this
        exact this
      have hrev : s.dropWhile isSpaceChar = (x :: xs).reverse ++ t.reverse := by
        have := congrArg List.reverse ht
        simpa using this.symm
      rw [hs2] at hh
      -- head of ((x :: xs).reverse) is the head of the left-trimmed list
      rcases hxr : (x :: xs).reverse with _ | ⟨y, ys⟩
      · exact absurd (congrArg List.length hxr) (by simp)
      · rw [hxr] at hh hrev
        simp only [List.head?_cons, Option.mem_def, Option.some_inj] at hh
        subst hh
        have hhead := head_dropWhile_false isSpaceChar s
        rw [hrev] at hhead
        exact hhead y (by simp)
  · intro h hh
    rw [List.getLast?_reverse] at hh
    exact head_dropWhile_false isSpaceChar (s.dropWhile isSpaceChar).reverse h hh

/-- C9, counterexample: the marker line
`F crashpad: -----BEGIN CRA-----BEGIN CRASHPAD MINIDUMP-----SHPAD MINIDUMP-----`
extracts to a blob that *is* the BEGIN sentinel: the single left-to-right
`str.replace` pass removes the embedded occurrence and thereby splices the
surrounding fragments into a fresh occurrence, which the claim's invariant
says can never survive. -/
theorem c9_counterexample_sentinel_respawn :
    extract_crashpad_data
        ("F crashpad: -----BEGIN CRA-----BEGIN CRASHPAD MINIDUMP-----SHPAD MINIDUMP-----".toList) =
      some beginSentinel ∧
    beginSentinel <:+: beginSentinel := by
  constructor
  · decide
  · exact List.infix_refl _

/-- C9 (amended): the extractor returns no result exactly when no position
of the log matches the `F crashpad: ([^$\n]+)` pattern, and a returned
blob never has leading or trailing whitespace; the two sentinels are
removed by one left-to-right non-overlapping `replace` pass each, but that
pass can splice a new sentinel occurrence out of adjacent fragments, so
the blob is not guaranteed sentinel-free. -/
theorem c9_extractor_contract (log : List Char) :
    (extract_crashpad_data log = none ↔
      ¬ ∃ pre c rest, payloadChar c = true ∧ log = pre ++ markerStr ++ c :: rest) ∧
    (∀ b, extract_crashpad_data log = some b →
      (∀ h ∈ b.head?, isSpaceChar h = false) ∧
      (∀ h ∈ b.getLast?, isSpaceChar h = false)) := by
  constructor
  · unfold extract_crashpad_data
    rcases hf : findallCrashpad log with _ | ⟨m, ms⟩ <;> dsimp only
    · constructor
      · intro _
        rw [← findallCrashpad_ne_nil_iff]
        intro hne
        exact hne hf
      · intro _; rfl
    · constructor
      · intro hx; cases hx
      · intro hnone
        exfalso
        apply hnone
        rw [← findallCrashpad_ne_nil_iff, hf]
        exact List.cons_ne_nil _ _
  · intro b hb
    unfold extract_crashpad_data at hb
    rcases hf : findallCrashpad log with _ | ⟨m, ms⟩ <;> rw [hf] at hb
    · cases hb
    · simp only [Option.some_inj] at hb
      rw [← hb]
      exact stripChars_ends _

/-- Witness for `c9_extractor_contract` at the log `F crashpad: ab`. -/
theorem c9_extractor_contract_witness :
    (∀ h ∈ (['a', 'b'] : List Char).head?, isSpaceChar h = false) ∧
    (∀ h ∈ (['a', 'b'] : List Char).getLast?, isSpaceChar h = false) :=
  (c9_extractor_contract ("F crashpad: ab".toList)).2 ['a', 'b'] (by decide)

/-- C10: a payload line whose remainder is `u ++ '$' :: v` with `u` free of
`$` and newline contributes exactly `u` — the capture stops at the first
`$` and the rest of the line is not collected. -/
theorem c10_capture_stops_at_dollar (u v : List Char) (hu : u ≠ [])
    (hall : ∀ x ∈ u, payloadChar x = true) :
    (findallCrashpad (markerStr ++ u ++ '$' :: v)).head? = some u := by
  obtain ⟨c, us, rfl⟩ := List.exists_cons_of_ne_nil hu
  have hc : payloadChar c = true := hall c (List.mem_cons_self c us)
  have hassoc : markerStr ++ (c :: us) ++ '$' :: v = markerStr ++ (c :: (us ++ '$' :: v)) := by
    simp
  rw [hassoc]
  rcases hsd : markerStr ++ (c :: (us ++ '$' :: v)) with _ | ⟨c0, s0⟩
  · exact absurd (congrArg List.length hsd) (by simp [markerStr])
  · have hpre : markerStr.isPrefixOf (c0 :: s0) = true := by
      apply List.isPrefixOf_iff_prefix.mpr
      exact ⟨c :: (us ++ '$' :: v), hsd⟩
    have hafter : (c0 :: s0).drop markerStr.length = c :: (us ++ '$' :: v) := by
      rw [← hsd]
      exact List.drop_left _ _
    have htake : (c :: (us ++ '$' :: v)).takeWhile payloadChar = c :: us := by
      rw [List.takeWhile_cons_of_pos hc]
      congr 1
      rw [List.takeWhile_append]
      have hus : us.takeWhile payloadChar = us := List.takeWhile_eq_self_iff.mpr
        (fun x hx => hall x (List.mem_cons_of_mem c hx))
      rw [if_pos (by rw [hus])]
      have hdollar : ('$' :: v).takeWhile payloadChar = [] := by
        simp [List.takeWhile, payloadChar]
      rw [hdollar, List.append_nil]
    have hrun : ((c0 :: s0).drop markerStr.length).takeWhile payloadChar = c :: us := by
      rw [hafter]; exact htake
    rw [findallCrashpad_cons_marker_run c0 s0 c us hpre hrun]
    rfl

/-- Witness for `c10_capture_stops_at_dollar` at remainder `abc$def`. -/
theorem c10_capture_stops_at_dollar_witness :
    (findallCrashpad (markerStr ++ "abc".toList ++ '$' :: "def".toList)).head? =
      some "abc".toList :=
  c10_capture_stops_at_dollar "abc".toList "def".toList (by decide) (by decide)

end CrashPipeline
